import Mathlib

/-!
Verification of the mccurse mod-pack core: the dependency resolver
(`mccurse/proxy.py: resolve`), the mod-pack state queries and planners
(`mccurse/pack.py: ModPack`), and the transactional change executor
(`mccurse/pack.py: FileChange`), shallowly embedded in Lean.

Modelling conventions:
* Python `OrderedDict` values are association lists `List (Nat × _)`;
  `alookup`, `ainsert`, `aerase` mirror `d[k]`, `d[k] = v` and `del d[k]`
  (assignment to an existing key keeps its position, otherwise appends).
* The filesystem is an association list from full path strings to file
  data (content abstracted to a natural number, plus the mtime).  The
  mod directory itself is assumed to exist (its absence raises
  `NotADirectoryError` before any interesting behaviour).
* Raised exceptions become `Option`/`Except` results; datetimes are
  naturals, dependency mod-ids are naturals.
-/

namespace Mccurse

/-- Association-list lookup, mirroring Python dict `d.get(k)`. -/
def alookup {κ α : Type} [DecidableEq κ] (k : κ) : List (κ × α) → Option α
  | [] => none
  | p :: rest => if p.1 = k then some p.2 else alookup k rest

/-- Association-list deletion, mirroring Python dict `del d[k]`. -/
def aerase {κ α : Type} [DecidableEq κ] (k : κ) : List (κ × α) → List (κ × α)
  | [] => []
  | p :: rest => if p.1 = k then aerase k rest else p :: aerase k rest

/-- Association-list assignment, mirroring Python dict `d[k] = v`:
an existing key keeps its position, a new key is appended. -/
def ainsert {κ α : Type} [DecidableEq κ] (k : κ) (v : α) (l : List (κ × α)) :
    List (κ × α) :=
  if (alookup k l).isSome then l.map (fun p => if p.1 = k then (k, v) else p)
  else l ++ [(k, v)]

theorem alookup_isSome_iff {κ α : Type} [DecidableEq κ] (k : κ) (l : List (κ × α)) :
    (alookup k l).isSome ↔ k ∈ l.map Prod.fst := by
  induction l with
  | nil => simp [alookup]
  | cons p rest ih =>
    by_cases h : p.1 = k <;> simp [alookup, h, ih]
    exact fun hk => absurd hk.symm h

theorem alookup_eq_none_iff {κ α : Type} [DecidableEq κ] (k : κ) (l : List (κ × α)) :
    alookup k l = none ↔ k ∉ l.map Prod.fst := by
  rw [← alookup_isSome_iff k l, Option.not_isSome_iff_eq_none]

theorem alookup_append {κ α : Type} [DecidableEq κ] (k : κ) (l m : List (κ × α)) :
    alookup k (l ++ m) =
      match alookup k l with
      | some v => some v
      | none => alookup k m := by
  induction l with
  | nil => simp [alookup]
  | cons p rest ih =>
    by_cases h : p.1 = k <;> simp [alookup, h, ih]

theorem alookup_append_left {κ α : Type} [DecidableEq κ] {k : κ} {l : List (κ × α)}
    (m : List (κ × α)) {v : α} (h : alookup k l = some v) :
    alookup k (l ++ m) = some v := by
  rw [alookup_append, h]

theorem alookup_append_right {κ α : Type} [DecidableEq κ] {k : κ} {l : List (κ × α)}
    (m : List (κ × α)) (h : alookup k l = none) :
    alookup k (l ++ m) = alookup k m := by
  rw [alookup_append, h]

theorem aerase_of_none {κ α : Type} [DecidableEq κ] {k : κ} {l : List (κ × α)}
    (h : alookup k l = none) : aerase k l = l := by
  induction l with
  | nil => rfl
  | cons p rest ih =>
    by_cases hp : p.1 = k
    · simp [alookup, hp] at h
    · simp only [alookup, hp, if_neg hp, if_false] at h ⊢
      simp [aerase, hp, ih h]

theorem aerase_append {κ α : Type} [DecidableEq κ] (k : κ) (l m : List (κ × α)) :
    aerase k (l ++ m) = aerase k l ++ aerase k m := by
  induction l with
  | nil => rfl
  | cons p rest ih =>
    by_cases hp : p.1 = k <;> simp [aerase, hp, ih]

theorem alookup_aerase_self {κ α : Type} [DecidableEq κ] (k : κ) (l : List (κ × α)) :
    alookup k (aerase k l) = none := by
  induction l with
  | nil => rfl
  | cons p rest ih =>
    by_cases hp : p.1 = k <;> simp [aerase, alookup, hp, ih]

theorem alookup_aerase_ne {κ α : Type} [DecidableEq κ] {j k : κ} (h : j ≠ k)
    (l : List (κ × α)) : alookup j (aerase k l) = alookup j l := by
  induction l with
  | nil => rfl
  | cons p rest ih =>
    by_cases hp : p.1 = k
    · have hpj : p.1 ≠ j := by rw [hp]; exact fun hjk => h hjk.symm
      rw [aerase, if_pos hp, ih, alookup, if_neg hpj]
    · rw [aerase, if_neg hp, alookup, alookup]
      by_cases hj : p.1 = j
      · rw [if_pos hj, if_pos hj]
      · rw [if_neg hj, if_neg hj, ih]

theorem ainsert_of_none {κ α : Type} [DecidableEq κ] {k : κ} (v : α)
    {l : List (κ × α)} (h : alookup k l = none) : ainsert k v l = l ++ [(k, v)] := by
  simp [ainsert, h]

theorem alookup_ainsert_self {κ α : Type} [DecidableEq κ] (k : κ) (v : α)
    (l : List (κ × α)) : alookup k (ainsert k v l) = some v := by
  unfold ainsert
  by_cases h : (alookup k l).isSome
  · simp only [h, if_true]
    induction l with
    | nil => simp [alookup] at h
    | cons p rest ih =>
      by_cases hp : p.1 = k
      · simp [alookup, hp]
      · simp only [alookup, hp, if_false] at h
        simpa [alookup, hp] using ih h
  · have hn : alookup k l = none := Option.not_isSome_iff_eq_none.mp h
    rw [if_neg h, alookup_append_right _ hn]
    simp [alookup]

theorem alookup_map_update_ne {κ α : Type} [DecidableEq κ] {j k : κ} (h : j ≠ k)
    (v : α) (l : List (κ × α)) :
    alookup j (l.map (fun p => if p.1 = k then (k, v) else p)) = alookup j l := by
  induction l with
  | nil => rfl
  | cons p rest ih =>
    by_cases hp : p.1 = k
    · have hkj : k ≠ j := fun hkj => h hkj.symm
      have hpj : p.1 ≠ j := by rw [hp]; exact hkj
      simp only [List.map_cons, if_pos hp, alookup, hkj, if_false, hpj, ih]
    · simp only [List.map_cons, if_neg hp, alookup]
      by_cases hj : p.1 = j
      · rw [if_pos hj, if_pos hj]
      · rw [if_neg hj, if_neg hj, ih]

theorem alookup_ainsert_ne {κ α : Type} [DecidableEq κ] {j k : κ} (h : j ≠ k)
    (v : α) (l : List (κ × α)) : alookup j (ainsert k v l) = alookup j l := by
  unfold ainsert
  by_cases hs : (alookup k l).isSome
  · rw [if_pos hs, alookup_map_update_ne h]
  · rw [if_neg hs, alookup_append]
    cases hjl : alookup j l with
    | some v' => rfl
    | none =>
      simp only [alookup]
      rw [if_neg (fun hkj : k = j => h hkj.symm)]

theorem aerase_ainsert_of_none {κ α : Type} [DecidableEq κ] {k : κ} (v : α)
    {l : List (κ × α)} (h : alookup k l = none) :
    aerase k (ainsert k v l) = l := by
  rw [ainsert_of_none v h, aerase_append, aerase_of_none h]
  simp [aerase]

/-- A single game modification record (`mccurse/addon.py: Mod`),
equality by all three fields. -/
structure Mod where
  id : Nat
  name : String
  summary : String
deriving DecidableEq

/-- Stability tier of a mod file (`mccurse/addon.py: Release`); the
constructors are lowercased because the Python member `Release.Release`
would shadow the type name in Lean. -/
inductive Release where
  | alpha
  | beta
  | release
deriving DecidableEq

/-- Numeric value of a release tier, as in the Python enumeration. -/
def Release.val : Release → Nat
  | .alpha => 1
  | .beta => 2
  | .release => 4

/-- One downloadable artifact of a mod (`mccurse/addon.py: File`).
The publication datetime is abstracted to a natural number; the
declared dependencies are a list of mod-ids, duplicates possible. -/
structure File where
  id : Nat
  mod : Mod
  name : String
  date : Nat
  release : Release
  url : String
  dependencies : List Nat
deriving DecidableEq

/-- The game a pack targets (`mccurse/curse.py: Game`), opaque here. -/
structure Game where
  name : String
  version : String
deriving DecidableEq

/-- Mod-pack state (`mccurse/pack.py: ModPack`): target directory plus
the two ordered stores mapping mod-id to installed file. -/
structure ModPack where
  game : Game
  path : String
  mods : List (Nat × File)
  dependencies : List (Nat × File)
deriving DecidableEq

/-- The pool of all installed files, as consulted by
`ModPack.installed = ChainMap(self.mods, self.dependencies)`:
lookups try `mods` first, then `dependencies`. -/
def installedPool (mp : ModPack) : List (Nat × File) :=
  mp.mods ++ mp.dependencies

/-- Lookup in the installed view (`self.installed.get(id)`). -/
def installedGet (mp : ModPack) (id : Nat) : Option File :=
  alookup id (installedPool mp)

/-- Number of pool keys not yet present in the result map; the primary
termination measure of the resolver worklist. -/
def unresolvedCount (pool resolved : List (Nat × File)) : Nat :=
  ((pool.map Prod.fst).toFinset \ (resolved.map Prod.fst).toFinset).card

theorem unresolvedCount_lt {pool resolved : List (Nat × File)} {d : Nat} {f : File}
    (hpool : alookup d pool = some f) (hres : alookup d resolved = none) :
    unresolvedCount pool (resolved ++ [(d, f)]) < unresolvedCount pool resolved := by
  have hdp : d ∈ pool.map Prod.fst :=
    (alookup_isSome_iff d pool).mp (by rw [hpool]; rfl)
  have hdr : d ∉ resolved.map Prod.fst := (alookup_eq_none_iff d resolved).mp hres
  apply Finset.card_lt_card
  constructor
  · intro x hx
    rw [Finset.mem_sdiff] at hx ⊢
    refine ⟨hx.1, fun hm => hx.2 ?_⟩
    rw [List.map_append, List.toFinset_append, Finset.mem_union]
    exact Or.inl hm
  · intro hsub
    have hd : d ∈ (pool.map Prod.fst).toFinset \ (resolved.map Prod.fst).toFinset := by
      rw [Finset.mem_sdiff]
      exact ⟨List.mem_toFinset.mpr hdp, fun hm => hdr (List.mem_toFinset.mp hm)⟩
    have := hsub hd
    rw [Finset.mem_sdiff, List.map_append, List.toFinset_append] at this
    exact this.2 (Finset.mem_union_right _ (by simp))

/-- Worklist core of `mccurse/proxy.py: resolve`: pop the queue front
to back, skip already-resolved ids, look the id up in the pool (a
missing entry is the Python `KeyError`, modelled as `none`), append its
dependencies to the queue and the entry to the result. -/
def resolveAux (pool resolved : List (Nat × File)) (queue : List Nat) :
    Option (List (Nat × File)) :=
  match queue with
  | [] => some resolved
  | depId :: rest =>
    if (alookup depId resolved).isSome then
      resolveAux pool resolved rest
    else
      match hp : alookup depId pool with
      | none => none
      | some dependency =>
        resolveAux pool (resolved ++ [(depId, dependency)])
          (rest ++ dependency.dependencies)
termination_by (unresolvedCount pool resolved, queue.length)
decreasing_by
  · apply Prod.Lex.right
    simp
  · apply Prod.Lex.left
    exact unresolvedCount_lt hp (by
      rename_i hno
      exact Option.not_isSome_iff_eq_none.mp hno)

/-- Dependency resolver (`mccurse/proxy.py: resolve`): result seeded
with the root under its mod-id, queue seeded with the root's declared
dependencies. -/
def resolve (root : File) (pool : List (Nat × File)) : Option (List (Nat × File)) :=
  resolveAux pool [(root.mod.id, root)] root.dependencies

/-- The mod-ids transitively required by a root file: the root's own
id, the root's declared dependencies, and — for every reached id other
than the root's (whose pool entry the resolver never consults) — the
dependencies declared by its pool file. -/
inductive Reach (root : File) (pool : List (Nat × File)) : Nat → Prop where
  | root : Reach root pool root.mod.id
  | start {d : Nat} : d ∈ root.dependencies → Reach root pool d
  | step {d e : Nat} {f : File} : Reach root pool d → d ≠ root.mod.id →
      alookup d pool = some f → e ∈ f.dependencies → Reach root pool e

theorem resolveAux_prefix {pool : List (Nat × File)} :
    ∀ {resolved queue r}, resolveAux pool resolved queue = some r →
      ∃ t, r = resolved ++ t := by
  intro resolved queue
  induction resolved, queue using resolveAux.induct pool with
  | case1 resolved =>
    intro r h
    rw [resolveAux] at h
    exact ⟨[], by simpa using h.symm⟩
  | case2 resolved depId rest hmem ih =>
    intro r h
    rw [resolveAux, if_pos hmem] at h
    exact ih h
  | case3 resolved depId rest hmem hp =>
    intro r h
    rw [resolveAux, if_neg hmem] at h
    split at h
    · exact absurd h (by simp)
    · rename_i dep hdep
      rw [hp] at hdep
      exact absurd hdep (by simp)
  | case4 resolved depId rest hmem dependency hp ih =>
    intro r h
    rw [resolveAux, if_neg hmem] at h
    split at h
    · exact absurd h (by simp)
    · rename_i dep hdep
      rw [hp] at hdep
      obtain rfl : dependency = dep := by injection hdep
      obtain ⟨t, ht⟩ := ih h
      exact ⟨(depId, dependency) :: t, by simpa using ht⟩

theorem resolveAux_nodup {pool : List (Nat × File)} :
    ∀ {resolved queue r}, resolveAux pool resolved queue = some r →
      (resolved.map Prod.fst).Nodup → (r.map Prod.fst).Nodup := by
  intro resolved queue
  induction resolved, queue using resolveAux.induct pool with
  | case1 resolved =>
    intro r h hn
    rw [resolveAux] at h
    obtain rfl : resolved = r := by simpa using h
    exact hn
  | case2 resolved depId rest hmem ih =>
    intro r h hn
    rw [resolveAux, if_pos hmem] at h
    exact ih h hn
  | case3 resolved depId rest hmem hp =>
    intro r h hn
    rw [resolveAux, if_neg hmem] at h
    split at h
    · exact absurd h (by simp)
    · rename_i dep hdep
      rw [hp] at hdep
      exact absurd hdep (by simp)
  | case4 resolved depId rest hmem dependency hp ih =>
    intro r h hn
    rw [resolveAux, if_neg hmem] at h
    split at h
    · exact absurd h (by simp)
    · rename_i dep hdep
      rw [hp] at hdep
      obtain rfl : dependency = dep := by injection hdep
      refine ih h ?_
      have hni : depId ∉ resolved.map Prod.fst := by
        rw [← alookup_eq_none_iff depId resolved]
        exact Option.not_isSome_iff_eq_none.mp hmem
      simp [List.nodup_append, hn, hni]

theorem resolveAux_queue_subset {pool : List (Nat × File)} :
    ∀ {resolved queue r}, resolveAux pool resolved queue = some r →
      ∀ d ∈ queue, d ∈ r.map Prod.fst := by
  intro resolved queue
  induction resolved, queue using resolveAux.induct pool with
  | case1 resolved =>
    intro r h d hd
    exact absurd hd (List.not_mem_nil d)
  | case2 resolved depId rest hmem ih =>
    intro r h d hd
    rw [resolveAux, if_pos hmem] at h
    rcases List.mem_cons.mp hd with rfl | hd2
    · have hk : d ∈ resolved.map Prod.fst := (alookup_isSome_iff d resolved).mp hmem
      obtain ⟨t, rfl⟩ := resolveAux_prefix h
      rw [List.map_append]
      exact List.mem_append_left _ hk
    · exact ih h d hd2
  | case3 resolved depId rest hmem hp =>
    intro r h d hd
    rw [resolveAux, if_neg hmem] at h
    split at h
    · exact absurd h (by simp)
    · rename_i dep hdep
      rw [hp] at hdep
      exact absurd hdep (by simp)
  | case4 resolved depId rest hmem dependency hp ih =>
    intro r h d hd
    rw [resolveAux, if_neg hmem] at h
    split at h
    · exact absurd h (by simp)
    · rename_i dep hdep
      rw [hp] at hdep
      obtain rfl : dependency = dep := by injection hdep
      rcases List.mem_cons.mp hd with rfl | hd2
      · obtain ⟨t, rfl⟩ := resolveAux_prefix h
        simp
      · exact ih h d (List.mem_append_left _ hd2)

theorem resolveAux_closure {pool : List (Nat × File)} :
    ∀ {resolved queue r}, resolveAux pool resolved queue = some r →
      ∀ p ∈ r, p ∈ resolved ∨
        (alookup p.1 pool = some p.2 ∧ ∀ e ∈ p.2.dependencies, e ∈ r.map Prod.fst) := by
  intro resolved queue
  induction resolved, queue using resolveAux.induct pool with
  | case1 resolved =>
    intro r h p hp
    rw [resolveAux] at h
    obtain rfl : resolved = r := by simpa using h
    exact Or.inl hp
  | case2 resolved depId rest hmem ih =>
    intro r h p hp
    rw [resolveAux, if_pos hmem] at h
    exact ih h p hp
  | case3 resolved depId rest hmem hpl =>
    intro r h p hp
    rw [resolveAux, if_neg hmem] at h
    split at h
    · exact absurd h (by simp)
    · rename_i dep hdep
      rw [hpl] at hdep
      exact absurd hdep (by simp)
  | case4 resolved depId rest hmem dependency hpl ih =>
    intro r h p hp
    rw [resolveAux, if_neg hmem] at h
    split at h
    · exact absurd h (by simp)
    · rename_i dep hdep
      rw [hpl] at hdep
      obtain rfl : dependency = dep := by injection hdep
      rcases ih h p hp with hmem2 | hrich
      · rcases List.mem_append.mp hmem2 with hold | hnew
        · exact Or.inl hold
        · obtain rfl : p = (depId, dependency) := by simpa using hnew
          refine Or.inr ⟨hpl, fun e he => ?_⟩
          exact resolveAux_queue_subset h e (List.mem_append_right _ he)
      · exact Or.inr hrich

theorem resolveAux_sound {root : File} {pool : List (Nat × File)} :
    ∀ {resolved queue r}, resolveAux pool resolved queue = some r →
      (∀ d ∈ queue, Reach root pool d) →
      (∀ p ∈ resolved, Reach root pool p.1) →
      root.mod.id ∈ resolved.map Prod.fst →
      ∀ p ∈ r, Reach root pool p.1 := by
  intro resolved queue
  induction resolved, queue using resolveAux.induct pool with
  | case1 resolved =>
    intro r h hq hres hroot p hp
    rw [resolveAux] at h
    obtain rfl : resolved = r := by simpa using h
    exact hres p hp
  | case2 resolved depId rest hmem ih =>
    intro r h hq hres hroot p hp
    rw [resolveAux, if_pos hmem] at h
    exact ih h (fun d hd => hq d (List.mem_cons_of_mem _ hd)) hres hroot p hp
  | case3 resolved depId rest hmem hpl =>
    intro r h hq hres hroot p hp
    rw [resolveAux, if_neg hmem] at h
    split at h
    · exact absurd h (by simp)
    · rename_i dep hdep
      rw [hpl] at hdep
      exact absurd hdep (by simp)
  | case4 resolved depId rest hmem dependency hpl ih =>
    intro r h hq hres hroot p hp
    rw [resolveAux, if_neg hmem] at h
    split at h
    · exact absurd h (by simp)
    · rename_i dep hdep
      rw [hpl] at hdep
      obtain rfl : dependency = dep := by injection hdep
      have hdne : depId ≠ root.mod.id := by
        intro hEq
        exact hmem ((alookup_isSome_iff depId resolved).mpr (hEq ▸ hroot))
      have hdr : Reach root pool depId := hq depId (List.mem_cons_self _ _)
      refine ih h ?_ ?_ ?_ p hp
      · intro d hd
        rcases List.mem_append.mp hd with hd1 | hd2
        · exact hq d (List.mem_cons_of_mem _ hd1)
        · exact Reach.step hdr hdne hpl hd2
      · intro q hqmem
        rcases List.mem_append.mp hqmem with h1 | h2
        · exact hres q h1
        · obtain rfl : q = (depId, dependency) := by simpa using h2
          exact hdr
      · rw [List.map_append]
        exact List.mem_append_left _ hroot

theorem resolveAux_isSome {root : File} {pool : List (Nat × File)}
    (hcov : ∀ d, Reach root pool d → d ≠ root.mod.id → (alookup d pool).isSome) :
    ∀ {resolved queue}, (∀ d ∈ queue, Reach root pool d) →
      root.mod.id ∈ resolved.map Prod.fst →
      (resolveAux pool resolved queue).isSome := by
  intro resolved queue
  induction resolved, queue using resolveAux.induct pool with
  | case1 resolved =>
    intro hq hroot
    rw [resolveAux]
    rfl
  | case2 resolved depId rest hmem ih =>
    intro hq hroot
    rw [resolveAux, if_pos hmem]
    exact ih (fun d hd => hq d (List.mem_cons_of_mem _ hd)) hroot
  | case3 resolved depId rest hmem hpl =>
    intro hq hroot
    have hdne : depId ≠ root.mod.id := by
      intro hEq
      exact hmem ((alookup_isSome_iff depId resolved).mpr (hEq ▸ hroot))
    have := hcov depId (hq depId (List.mem_cons_self _ _)) hdne
    rw [hpl] at this
    exact absurd this (by simp)
  | case4 resolved depId rest hmem dependency hpl ih =>
    intro hq hroot
    rw [resolveAux, if_neg hmem]
    have hdne : depId ≠ root.mod.id := by
      intro hEq
      exact hmem ((alookup_isSome_iff depId resolved).mpr (hEq ▸ hroot))
    have hdr : Reach root pool depId := hq depId (List.mem_cons_self _ _)
    split
    · rename_i hdep
      rw [hpl] at hdep
      exact absurd hdep (by simp)
    · rename_i dep hdep
      rw [hpl] at hdep
      obtain rfl : dependency = dep := by injection hdep
      refine ih ?_ ?_
      · intro d hd
        rcases List.mem_append.mp hd with hd1 | hd2
        · exact hq d (List.mem_cons_of_mem _ hd1)
        · exact Reach.step hdr hdne hpl hd2
      · rw [List.map_append]
        exact List.mem_append_left _ hroot

theorem resolve_complete {root : File} {pool : List (Nat × File)} {r : List (Nat × File)}
    (h : resolve root pool = some r) :
    ∀ d, Reach root pool d → d ∈ r.map Prod.fst := by
  intro d hd
  induction hd with
  | root =>
    obtain ⟨t, rfl⟩ := resolveAux_prefix h
    simp
  | start hmem => exact resolveAux_queue_subset h _ hmem
  | step hr hne hpl hdep ih =>
    rename_i d' e f
    obtain ⟨fd, hfdmem, hfdfst⟩ := List.exists_of_mem_map ih
    rcases resolveAux_closure h fd hfdmem with hbase | hrich
    · have : d' = root.mod.id := by
        have := List.mem_singleton.mp hbase
        rw [← hfdfst, this]
      exact absurd this hne
    · have hfd2 : fd.2 = f := by
        have h1 := hrich.1
        rw [hfdfst, hpl] at h1
        injection h1 with h2
        exact h2.symm
      refine hrich.2 e ?_
      rw [hfd2]
      exact hdep

/-- Number of pool keys not in the seen list; termination measure of
the spec-side worklist. -/
def unseenCount (pool : List (Nat × File)) (seen : List Nat) : Nat :=
  ((pool.map Prod.fst).toFinset \ seen.toFinset).card

theorem unseenCount_lt {pool : List (Nat × File)} {seen : List Nat} {d : Nat} {f : File}
    (hpool : alookup d pool = some f) (hseen : d ∉ seen) :
    unseenCount pool (seen ++ [d]) < unseenCount pool seen := by
  have hdp : d ∈ pool.map Prod.fst :=
    (alookup_isSome_iff d pool).mp (by rw [hpool]; rfl)
  apply Finset.card_lt_card
  constructor
  · intro x hx
    rw [Finset.mem_sdiff] at hx ⊢
    refine ⟨hx.1, fun hm => hx.2 ?_⟩
    rw [List.toFinset_append, Finset.mem_union]
    exact Or.inl hm
  · intro hsub
    have hd : d ∈ (pool.map Prod.fst).toFinset \ seen.toFinset := by
      rw [Finset.mem_sdiff]
      exact ⟨List.mem_toFinset.mpr hdp, fun hm => hseen (List.mem_toFinset.mp hm)⟩
    have := hsub hd
    rw [Finset.mem_sdiff, List.toFinset_append] at this
    exact this.2 (Finset.mem_union_right _ (by simp))

/-- Modelled from the spec (§4.1): the breadth-first, first-discovered
order of mod-ids.  A worklist over bare ids: pop front to back, skip
ids already seen, otherwise look the id up in the pool, record it and
append its declared dependencies to the end of the queue. -/
def specBFSAux (pool : List (Nat × File)) (seen : List Nat) (queue : List Nat) :
    Option (List Nat) :=
  match queue with
  | [] => some seen
  | d :: rest =>
    if d ∈ seen then specBFSAux pool seen rest
    else
      match hp : alookup d pool with
      | none => none
      | some f => specBFSAux pool (seen ++ [d]) (rest ++ f.dependencies)
termination_by (unseenCount pool seen, queue.length)
decreasing_by
  · apply Prod.Lex.right
    simp
  · apply Prod.Lex.left
    rename_i hno
    exact unseenCount_lt hp hno

/-- Modelled from the spec (§4.1): the full breadth-first,
first-discovered id order, root id first. -/
def specBFS (root : File) (pool : List (Nat × File)) : Option (List Nat) :=
  specBFSAux pool [root.mod.id] root.dependencies

theorem resolveAux_refines_specBFS {pool : List (Nat × File)} :
    ∀ {resolved queue r}, resolveAux pool resolved queue = some r →
      specBFSAux pool (resolved.map Prod.fst) queue = some (r.map Prod.fst) := by
  intro resolved queue
  induction resolved, queue using resolveAux.induct pool with
  | case1 resolved =>
    intro r h
    rw [resolveAux] at h
    obtain rfl : resolved = r := by simpa using h
    rw [specBFSAux]
  | case2 resolved depId rest hmem ih =>
    intro r h
    rw [resolveAux, if_pos hmem] at h
    rw [specBFSAux, if_pos ((alookup_isSome_iff depId resolved).mp hmem)]
    exact ih h
  | case3 resolved depId rest hmem hpl =>
    intro r h
    rw [resolveAux, if_neg hmem] at h
    split at h
    · exact absurd h (by simp)
    · rename_i dep hdep
      rw [hpl] at hdep
      exact absurd hdep (by simp)
  | case4 resolved depId rest hmem dependency hpl ih =>
    intro r h
    rw [resolveAux, if_neg hmem] at h
    split at h
    · exact absurd h (by simp)
    · rename_i dep hdep
      rw [hpl] at hdep
      obtain rfl : dependency = dep := by injection hdep
      have hnotseen : depId ∉ resolved.map Prod.fst := by
        rw [← alookup_eq_none_iff depId resolved]
        exact Option.not_isSome_iff_eq_none.mp hmem
      rw [specBFSAux, if_neg hnotseen]
      have := ih h
      rw [List.map_append] at this
      split
      · rename_i hdep2
        rw [hpl] at hdep2
        exact absurd hdep2 (by simp)
      · rename_i dep2 hdep2
        rw [hpl] at hdep2
        obtain rfl : dependency = dep2 := by injection hdep2
        exact this

/-- C3: for every root file and every pool covering the transitively
required mod-ids, `resolve` succeeds and returns an ordered map whose
first entry is the root under its own mod-id, whose keys are exactly
the transitively required ids, without duplicates, in the
breadth-first first-discovered order described by the spec. -/
theorem resolve_breadth_first_order (root : File) (pool : List (Nat × File))
    (hcov : ∀ d, Reach root pool d → d ≠ root.mod.id → (alookup d pool).isSome) :
    ∃ r, resolve root pool = some r ∧
      r.head? = some (root.mod.id, root) ∧
      (r.map Prod.fst).Nodup ∧
      (∀ i, i ∈ r.map Prod.fst ↔ Reach root pool i) ∧
      specBFS root pool = some (r.map Prod.fst) := by
  have hq : ∀ d ∈ root.dependencies, Reach root pool d := fun d hd => Reach.start hd
  have hroot : root.mod.id ∈ ([(root.mod.id, root)].map Prod.fst) := by simp
  have hsome : (resolve root pool).isSome :=
    resolveAux_isSome hcov hq hroot
  obtain ⟨r, hr⟩ := Option.isSome_iff_exists.mp hsome
  refine ⟨r, hr, ?_, ?_, ?_, ?_⟩
  · obtain ⟨t, rfl⟩ := resolveAux_prefix hr
    rfl
  · exact resolveAux_nodup hr (by simp)
  · intro i
    constructor
    · intro hi
      obtain ⟨p, hpmem, hpfst⟩ := List.exists_of_mem_map hi
      have := resolveAux_sound hr hq
        (fun p hp => by
          obtain rfl : p = (root.mod.id, root) := List.mem_singleton.mp hp
          exact Reach.root) hroot p hpmem
      rw [hpfst] at this
      exact this
    · exact resolve_complete hr i
  · exact resolveAux_refines_specBFS hr

/-- Concrete mods and files realizing the dependency cycle A→B→C→A
from the spec's cycle test. -/
def cycleFileA : File := ⟨11, ⟨1, "A", "mod a"⟩, "a.jar", 100, .release, "uA", [2]⟩

/-- Second file of the concrete dependency cycle. -/
def cycleFileB : File := ⟨12, ⟨2, "B", "mod b"⟩, "b.jar", 100, .release, "uB", [3]⟩

/-- Third file of the concrete dependency cycle, closing the loop. -/
def cycleFileC : File := ⟨13, ⟨3, "C", "mod c"⟩, "c.jar", 100, .release, "uC", [1]⟩

/-- Pool realizing the cycle A→B→C→A. -/
def cyclePool : List (Nat × File) := [(1, cycleFileA), (2, cycleFileB), (3, cycleFileC)]

/-- C4: `resolve` is a total function (it is accepted by the
termination checker), and on the concrete cyclic pool A→B→C→A it
terminates with exactly the three entries, A first. -/
theorem resolve_cycle_terminates :
    resolve cycleFileA cyclePool =
      some [(1, cycleFileA), (2, cycleFileB), (3, cycleFileC)] := by
  simp [resolve, resolveAux, cyclePool, cycleFileA, cycleFileB, cycleFileC, alookup]

/-- A concrete file with no declared dependencies. -/
def soloFile : File := ⟨21, ⟨7, "S", "solo mod"⟩, "s.jar", 50, .release, "uS", []⟩

/-- Witness for C3 at a concrete input: a root file with no
dependencies over the empty pool, where the coverage hypothesis is
discharged by showing every reached id is the root's. -/
theorem resolve_breadth_first_order_witness :
    ∃ r, resolve soloFile [] = some r ∧
      r.head? = some (soloFile.mod.id, soloFile) ∧
      (r.map Prod.fst).Nodup ∧
      (∀ i, i ∈ r.map Prod.fst ↔ Reach soloFile [] i) ∧
      specBFS soloFile [] = some (r.map Prod.fst) := by
  refine resolve_breadth_first_order soloFile [] ?_
  intro d hd hne
  exfalso
  apply hne
  clear hne
  induction hd with
  | root => rfl
  | start hmem => simp [soloFile] at hmem
  | step hr hne2 hpl hdep ih => simp [alookup] at hpl

/-- Loop body of `mccurse/pack.py: ModPack.filter_obsoletes`, written
with the generator's control flow: look the candidate's mod-id up in
the installed view; yield when absent or strictly older, skip
otherwise. -/
def filter_obsoletes (mp : ModPack) : List File → List File
  | [] => []
  | file :: rest =>
    match installedGet mp file.mod.id with
    | none => file :: filter_obsoletes mp rest
    | some current =>
      if current.date < file.date then file :: filter_obsoletes mp rest
      else filter_obsoletes mp rest

/-- Modelled from the spec (§4.2): keep a candidate file iff its
mod-id is not a key of the installed union, or its date is strictly
greater than the installed file's date. -/
def obsKeep (mp : ModPack) (f : File) : Bool :=
  match installedGet mp f.mod.id with
  | none => true
  | some current => current.date < f.date

/-- C5: `filter_obsoletes` is exactly the filter of the input by the
spec's keep-predicate: it yields precisely the candidates that are not
installed or strictly newer, each input occurrence once, in input
order (the output is a sublist of the input). -/
theorem filter_obsoletes_spec (mp : ModPack) (files : List File) :
    filter_obsoletes mp files = files.filter (obsKeep mp) ∧
    (filter_obsoletes mp files).Sublist files ∧
    (∀ f, f ∈ filter_obsoletes mp files ↔
      f ∈ files ∧ (installedGet mp f.mod.id = none ∨
        ∃ cur, installedGet mp f.mod.id = some cur ∧ cur.date < f.date)) ∧
    (∀ f, (filter_obsoletes mp files).count f =
      if obsKeep mp f then files.count f else 0) := by
  have hfil : filter_obsoletes mp files = files.filter (obsKeep mp) := by
    induction files with
    | nil => rfl
    | cons file rest ih =>
      rw [filter_obsoletes, List.filter_cons]
      cases hcur : installedGet mp file.mod.id with
      | none =>
        have : obsKeep mp file = true := by rw [obsKeep, hcur]
        rw [this, ih]
        simp
      | some current =>
        by_cases hd : current.date < file.date
        · have hk : obsKeep mp file = true := by
            rw [obsKeep, hcur]
            simpa using hd
          simp [hd, hk, ih]
        · have hk : obsKeep mp file = false := by
            rw [obsKeep, hcur]
            simpa using hd
          simp [hd, hk, ih]
  have hkeep : ∀ f, obsKeep mp f = true ↔
      (installedGet mp f.mod.id = none ∨
        ∃ cur, installedGet mp f.mod.id = some cur ∧ cur.date < f.date) := by
    intro f
    rw [obsKeep]
    cases hcur : installedGet mp f.mod.id with
    | none => simp
    | some current =>
      simp only [decide_eq_true_eq]
      constructor
      · intro hd
        exact Or.inr ⟨current, rfl, hd⟩
      · rintro (hno | ⟨cur, hcur2, hd⟩)
        · exact absurd hno (by simp)
        · obtain rfl : current = cur := by injection hcur2
          exact hd
  refine ⟨hfil, ?_, ?_, ?_⟩
  · rw [hfil]
    exact List.filter_sublist files
  · intro f
    rw [hfil, List.mem_filter, hkeep]
  · intro f
    rw [hfil]
    by_cases hk : obsKeep mp f
    · rw [if_pos hk, List.count_filter hk]
    · rw [if_neg hk, List.count_eq_zero]
      intro hmem
      exact hk ((List.mem_filter.mp hmem).2)

/-- One `needed.update(...)` step of `ModPack.orphans`: Python
`dict.update` assigns every item of the argument in order. -/
def updateAll (acc upd : List (Nat × File)) : List (Nat × File) :=
  upd.foldl (fun a p => ainsert p.1 p.2 a) acc

/-- Accumulating loop of `ModPack.orphans`: resolve each explicit file
against the installed pool and merge the result into `needed`; a
`KeyError` escaping `resolve` aborts (modelled as `none`). -/
def neededMapGo (mp : ModPack) (acc : List (Nat × File)) :
    List (Nat × File) → Option (List (Nat × File))
  | [] => some acc
  | p :: rest =>
    match resolve p.2 (installedPool mp) with
    | none => none
    | some r => neededMapGo mp (updateAll acc r) rest

/-- The `needed` map of `ModPack.orphans`, seeded empty. -/
def neededMap (mp : ModPack) (mods : List (Nat × File)) :
    Option (List (Nat × File)) :=
  neededMapGo mp [] mods

/-- `mccurse/pack.py: ModPack.orphans`: every file of the
`dependencies` store whose mod-id is not a key of `needed`, in store
order.  The `mods` argument is the caller-supplied override, defaulted
by callers to `mp.mods`. -/
def orphans (mp : ModPack) (mods : List (Nat × File)) : Option (List File) :=
  (neededMap mp mods).map (fun needed =>
    (mp.dependencies.filter (fun p => (alookup p.1 needed).isNone)).map Prod.snd)

theorem alookup_updateAll (i : Nat) (upd : List (Nat × File)) :
    ∀ acc, (alookup i (updateAll acc upd)).isSome ↔
      ((alookup i acc).isSome ∨ i ∈ upd.map Prod.fst) := by
  induction upd with
  | nil => simp [updateAll]
  | cons p rest ih =>
    intro acc
    have step : updateAll acc (p :: rest) = updateAll (ainsert p.1 p.2 acc) rest := rfl
    rw [step, ih]
    by_cases hip : i = p.1
    · subst hip
      rw [alookup_ainsert_self]
      simp
    · rw [alookup_ainsert_ne hip]
      constructor
      · rintro (hs | hr)
        · exact Or.inl hs
        · exact Or.inr (by simp [hr])
      · rintro (hs | hr)
        · exact Or.inl hs
        · have h12 : i = p.1 ∨ i ∈ rest.map Prod.fst := by simpa using hr
          rcases h12 with h1 | h2
          · exact absurd h1 hip
          · exact Or.inr h2

theorem neededMapGo_spec (mp : ModPack) :
    ∀ (mods : List (Nat × File)) (acc : List (Nat × File)),
      (∀ p ∈ mods, (resolve p.2 (installedPool mp)).isSome) →
      ∃ needed, neededMapGo mp acc mods = some needed ∧
        ∀ i, (alookup i needed).isSome ↔
          ((alookup i acc).isSome ∨
            ∃ p ∈ mods, ∃ r, resolve p.2 (installedPool mp) = some r ∧
              i ∈ r.map Prod.fst) := by
  intro mods
  induction mods with
  | nil =>
    intro acc hres
    exact ⟨acc, rfl, by simp⟩
  | cons p rest ih =>
    intro acc hres
    have hp := hres p (List.mem_cons_self _ _)
    obtain ⟨r, hr⟩ := Option.isSome_iff_exists.mp hp
    obtain ⟨needed, hneed, hiff⟩ :=
      ih (updateAll acc r) (fun q hq => hres q (List.mem_cons_of_mem _ hq))
    refine ⟨needed, ?_, ?_⟩
    · rw [neededMapGo, hr]
      exact hneed
    · intro i
      rw [hiff i, alookup_updateAll]
      constructor
      · rintro ((hs | hkey) | hrest)
        · exact Or.inl hs
        · exact Or.inr ⟨p, List.mem_cons_self _ _, r, hr, hkey⟩
        · obtain ⟨q, hq, r2, hr2, hk2⟩ := hrest
          exact Or.inr ⟨q, List.mem_cons_of_mem _ hq, r2, hr2, hk2⟩
      · rintro (hs | ⟨q, hq, r2, hr2, hk2⟩)
        · exact Or.inl (Or.inl hs)
        · rcases List.mem_cons.mp hq with rfl | hq2
          · rw [hr] at hr2
            obtain rfl : r = r2 := by injection hr2
            exact Or.inl (Or.inr hk2)
          · exact Or.inr ⟨q, hq2, r2, hr2, hk2⟩

/-- C6: when the installed pool covers the transitive dependencies of
every file in the override set, `orphans` succeeds and yields exactly
the dependency-store files whose mod-id is in none of the resolve
results (equivalently, transitively required by no override file), in
dependency-store order. -/
theorem orphans_spec (mp : ModPack) (mods : List (Nat × File))
    (hcov : ∀ p ∈ mods, ∀ d, Reach p.2 (installedPool mp) d →
      d ≠ p.2.mod.id → (alookup d (installedPool mp)).isSome) :
    ∃ needed, neededMap mp mods = some needed ∧
      (∀ i, (alookup i needed).isSome ↔
        ∃ p ∈ mods, ∃ r, resolve p.2 (installedPool mp) = some r ∧
          i ∈ r.map Prod.fst) ∧
      (∀ i, (alookup i needed).isSome ↔
        ∃ p ∈ mods, Reach p.2 (installedPool mp) i) ∧
      orphans mp mods =
        some ((mp.dependencies.filter
          (fun p => (alookup p.1 needed).isNone)).map Prod.snd) := by
  have hres : ∀ p ∈ mods, (resolve p.2 (installedPool mp)).isSome := by
    intro p hp
    exact resolveAux_isSome (hcov p hp)
      (fun d hd => Reach.start hd) (by simp)
  obtain ⟨needed, hneed, hiff⟩ := neededMapGo_spec mp mods [] hres
  have hiff2 : ∀ i, (alookup i needed).isSome ↔
      ∃ p ∈ mods, ∃ r, resolve p.2 (installedPool mp) = some r ∧
        i ∈ r.map Prod.fst := by
    intro i
    rw [hiff i]
    simp [alookup]
  refine ⟨needed, hneed, hiff2, ?_, ?_⟩
  · intro i
    rw [hiff2 i]
    constructor
    · rintro ⟨p, hp, r, hr, hk⟩
      obtain ⟨r2, hr2, _, _, hkeys, _⟩ := resolve_breadth_first_order p.2 _ (hcov p hp)
      rw [hr] at hr2
      obtain rfl : r2 = r := by
        injection hr2 with h2
        exact h2.symm
      exact ⟨p, hp, (hkeys i).mp hk⟩
    · rintro ⟨p, hp, hreach⟩
      obtain ⟨r2, hr2, _, _, hkeys, _⟩ := resolve_breadth_first_order p.2 _ (hcov p hp)
      exact ⟨p, hp, r2, hr2, (hkeys i).mpr hreach⟩
  · rw [orphans, neededMap, hneed]
    rfl

/-- Reference to one of the two metadata stores of a pack.  In the
source a `FileChange` holds the store object itself; the executor
below resolves the reference against the current pack state. -/
inductive StoreRef where
  | mods
  | deps
deriving DecidableEq

/-- Dereference a store of the pack. -/
def getStore (mp : ModPack) (r : StoreRef) : List (Nat × File) :=
  match r with
  | .mods => mp.mods
  | .deps => mp.dependencies

/-- Replace a store of the pack. -/
def setStore (mp : ModPack) (r : StoreRef) (s : List (Nat × File)) : ModPack :=
  match r with
  | .mods => { mp with mods := s }
  | .deps => { mp with dependencies := s }

/-- `mccurse/pack.py: FileChange` — the four optional slots.  The
`pack` attribute of the source class is the state the executor
functions below act on. -/
structure FileChange where
  source : Option StoreRef
  old_file : Option File
  destination : Option StoreRef
  new_file : Option File
deriving DecidableEq

/-- `FileChange.__valid_source`: both source slots present. -/
def validSource (c : FileChange) : Bool :=
  c.source.isSome && c.old_file.isSome

/-- `FileChange.__valid_destination`: both destination slots present. -/
def validDestination (c : FileChange) : Bool :=
  c.destination.isSome && c.new_file.isSome

/-- `FileChange.__file_change`: the file on disk should change. -/
def fileChangeB (c : FileChange) : Bool :=
  decide (c.new_file ≠ c.old_file)

/-- The attrs-generated `FileChange` constructor as it actually runs:
the slot validators are all `optional(instance_of(...))`, which any
well-typed slots satisfy, and the post-init validation hook in the
source is named `__attr_post_init__` (pack.py:391) whereas attrs only
invokes a hook named `__attrs_post_init__` — so the hook is dead code
and construction always succeeds, whatever the slots. -/
def mkFileChange (source : Option StoreRef) (old_file : Option File)
    (destination : Option StoreRef) (new_file : Option File) : FileChange :=
  ⟨source, old_file, destination, new_file⟩

/-- Body of the misnamed validation hook
`FileChange.__attr_post_init__` (pack.py:391-398): accept when at
least one slot pair is fully present, otherwise raise `TypeError`
(the second branch is unreachable).  Because of the misnaming, attrs
never calls this during construction. -/
def attrPostInit (c : FileChange) : Except String Unit :=
  if validSource c || validDestination c then .ok ()
  else if !validSource c then .error "Invalid FileChange: source"
  else .error "Invalid FileChange: destination"

/-- `FileChange.installation`: no source, install `file` into the
referenced store. -/
def FileChange.installation (store : StoreRef) (file : File) : FileChange :=
  ⟨none, none, some store, some file⟩

/-- `FileChange.explicit`: move `file` from `dependencies` to `mods`,
the file itself unchanged. -/
def FileChange.explicit (file : File) : FileChange :=
  ⟨some .deps, some file, some .mods, some file⟩

/-- `FileChange.upgrade`: replace the installed file of the same mod
in whichever store holds it (`mods` checked first); `none` models the
`KeyError` when no store holds it. -/
def FileChange.upgrade (mp : ModPack) (file : File) : Option FileChange :=
  match alookup file.mod.id mp.mods with
  | some old => some ⟨some .mods, some old, some .mods, some file⟩
  | none =>
    match alookup file.mod.id mp.dependencies with
    | some old => some ⟨some .deps, some old, some .deps, some file⟩
    | none => none

/-- `FileChange.removal`: remove `file` from whichever store holds its
mod-id (`mods` checked first); `none` models the `KeyError` when the
store entry is missing or holds a different file id. -/
def FileChange.removal (mp : ModPack) (file : File) : Option FileChange :=
  match alookup file.mod.id mp.mods with
  | some old =>
    if old.id = file.id then some ⟨some .mods, some file, none, none⟩ else none
  | none =>
    match alookup file.mod.id mp.dependencies with
    | some old =>
      if old.id = file.id then some ⟨some .deps, some file, none, none⟩ else none
    | none => none

/-- Error kinds raised by the planners (`mccurse/exceptions.py` plus
the built-in `KeyError`/`StopIteration`). -/
inductive PackError where
  | AlreadyInstalled (name : String)
  | NoFileFound (name : String)
  | NotInstalled (name : String)
  | WouldBrokeDependency (culprit : Mod) (dependents : List Mod)
  | KeyError
  | StopIteration
deriving DecidableEq

/-- Items of the `ChainMap(self.mods, self.dependencies)` iteration:
Python builds a dict by updating with `dependencies` first, then
`mods`, so colliding keys keep their `dependencies` position but take
the `mods` value. -/
def chainMapItems (mp : ModPack) : List (Nat × File) :=
  mp.mods.foldl (fun acc p => ainsert p.1 p.2 acc) mp.dependencies

/-- `self.installed.values()` as iterated by `remove_changes`. -/
def installedValues (mp : ModPack) : List File :=
  (chainMapItems mp).map Prod.snd

/-- The `broken` list of `ModPack.remove_changes`: the owning mod of
every installed file that declares `mod.id` as a dependency. -/
def brokenDeps (mp : ModPack) (mod : Mod) : List Mod :=
  ((installedValues mp).filter (fun f => decide (mod.id ∈ f.dependencies))).map File.mod

/-- Heads of maximal runs of equal names, as Python
`(next(g) for k, g in groupby(srt, key=name))` produces on the sorted
list. -/
def runHeadsByName (l : List Mod) : List Mod :=
  match l with
  | [] => []
  | m :: rest => m :: runHeadsByName (rest.dropWhile (fun x => x.name == m.name))
termination_by l.length
decreasing_by
  have := (List.dropWhile_sublist (l := rest) (fun x => x.name == m.name)).length_le
  simp only [List.length_cons]
  omega

/-- `uniq_names` of `ModPack.remove_changes`: stable-sort by mod name,
then keep the first mod of each equal-name group. -/
def uniq_names (mods : List Mod) : List Mod :=
  runHeadsByName (mods.mergeSort (fun a b => decide (a.name ≤ b.name)))

/-- First half of the success tail of `ModPack.remove_changes`: pop
the mod from a copy of `mods` and build its removal change when it was
explicit (an escaping `KeyError` is an error result). -/
def removeHead (mp : ModPack) (mod : Mod) : Except PackError (List FileChange) :=
  match alookup mod.id mp.mods with
  | some main =>
    match FileChange.removal mp main with
    | some ch => .ok [ch]
    | none => .error .KeyError
  | none => .ok []

/-- Success tail of `ModPack.remove_changes`: the explicit-file
removal change, then a removal change for every file orphaned by the
hypothetical removal; an escaping `KeyError` is an error result. -/
def removeTail (mp : ModPack) (mod : Mod) : Except PackError (List FileChange) :=
  match removeHead mp mod with
  | .error e => .error e
  | .ok start =>
    match orphans mp (aerase mod.id mp.mods) with
    | none => .error .KeyError
    | some os =>
      match os.mapM (fun o => FileChange.removal mp o) with
      | none => .error .KeyError
      | some removals => .ok (start ++ removals)

/-- `mccurse/pack.py: ModPack.remove_changes`. -/
def remove_changes (mp : ModPack) (mod : Mod) : Except PackError (List FileChange) :=
  if (installedGet mp mod.id).isNone then .error (.NotInstalled mod.name)
  else if brokenDeps mp mod ≠ [] then
    .error (.WouldBrokeDependency mod (uniq_names (brokenDeps mp mod)))
  else removeTail mp mod

/-- Dependency part of `ModPack.install_changes`: each remaining file
becomes an upgrade change when its mod-id is installed, otherwise an
installation change into `dependencies`. -/
def planInstallRest (mp : ModPack) : List File → Except PackError (List FileChange)
  | [] => .ok []
  | dependency :: rest =>
    if (installedGet mp dependency.mod.id).isSome then
      match FileChange.upgrade mp dependency with
      | none => .error .KeyError
      | some c => (planInstallRest mp rest).map (fun cs => c :: cs)
    else
      (planInstallRest mp rest).map
        (fun cs => FileChange.installation .deps dependency :: cs)

/-- `mccurse/pack.py: ModPack.install_changes`; the file tree returned
by the catalog collaborator `latest_file_tree` is passed as `tree`
(root file first per its contract).  `next()` on the exhausted
filtered stream is the `StopIteration` case. -/
def install_changes (mp : ModPack) (mod : Mod) (tree : List File) :
    Except PackError (List FileChange) :=
  if (alookup mod.id mp.mods).isSome then .error (.AlreadyInstalled mod.name)
  else
    match alookup mod.id mp.dependencies with
    | some f => .ok [FileChange.explicit f]
    | none =>
      if tree.isEmpty then .error (.NoFileFound mod.name)
      else
        match filter_obsoletes mp tree with
        | [] => .error .StopIteration
        | first :: rest =>
          (planInstallRest mp rest).map
            (fun cs => FileChange.installation .mods first :: cs)

/-- C2 (code bug): constructing a `FileChange` with all four slots
absent SUCCEEDS in the program — the constructor returns a value whose
four slots are all `none` — because the validation hook at pack.py:391
is misnamed `__attr_post_init__` while attrs only calls
`__attrs_post_init__`; the hook's own body, evaluated on the
constructed value, would have raised
`TypeError('Invalid FileChange: source')`, which is what the spec's
invariant (and this claim) demand of construction. -/
theorem fileChange_all_absent_constructs :
    (mkFileChange none none none none).source = none ∧
    (mkFileChange none none none none).old_file = none ∧
    (mkFileChange none none none none).destination = none ∧
    (mkFileChange none none none none).new_file = none ∧
    attrPostInit (mkFileChange none none none none) =
      .error "Invalid FileChange: source" :=
  ⟨rfl, rfl, rfl, rfl, rfl⟩

theorem upgrade_isSome_of_installed {mp : ModPack} {f : File}
    (h : (installedGet mp f.mod.id).isSome) :
    ∃ c, FileChange.upgrade mp f = some c := by
  rw [installedGet, installedPool, alookup_append] at h
  rw [FileChange.upgrade]
  cases hm : alookup f.mod.id mp.mods with
  | some old => exact ⟨_, rfl⟩
  | none =>
    rw [hm] at h
    cases hd : alookup f.mod.id mp.dependencies with
    | some old => exact ⟨_, rfl⟩
    | none =>
      rw [hd] at h
      exact absurd h (by simp)

theorem planInstallRest_ok (mp : ModPack) :
    ∀ files, ∃ cs, planInstallRest mp files = .ok cs := by
  intro files
  induction files with
  | nil => exact ⟨[], rfl⟩
  | cons d rest ih =>
    obtain ⟨cs, hcs⟩ := ih
    by_cases hin : (installedGet mp d.mod.id).isSome
    · obtain ⟨c, hc⟩ := upgrade_isSome_of_installed hin
      rw [planInstallRest, if_pos hin, hc, hcs]
      exact ⟨c :: cs, rfl⟩
    · rw [planInstallRest, if_neg hin, hcs]
      exact ⟨FileChange.installation .deps d :: cs, rfl⟩

/-- C9: for a mod installed in neither store and a non-empty file tree
rooted at that mod's file, `install_changes` succeeds with a non-empty
change list whose first element installs the tree's root file into the
`mods` store — `filter_obsoletes` cannot drop the root, so the `next()`
call cannot raise `StopIteration`. -/
theorem install_changes_head_installs_root (mp : ModPack) (mod : Mod)
    (t0 : File) (ts : List File)
    (hmods : alookup mod.id mp.mods = none)
    (hdeps : alookup mod.id mp.dependencies = none)
    (hroot : t0.mod.id = mod.id) :
    ∃ cs, install_changes mp mod (t0 :: ts) =
      .ok (FileChange.installation .mods t0 :: cs) := by
  have hget : installedGet mp t0.mod.id = none := by
    rw [installedGet, installedPool, hroot, alookup_append_right _ hmods]
    exact hdeps
  obtain ⟨cs, hcs⟩ := planInstallRest_ok mp (filter_obsoletes mp ts)
  refine ⟨cs, ?_⟩
  rw [install_changes, if_neg (by simp [hmods]), hdeps]
  have hemp : (t0 :: ts).isEmpty = false := rfl
  rw [hemp]
  simp only [Bool.false_eq_true, if_false, filter_obsoletes, hget, hcs, Except.map]

/-- The explicitly installed sample mod: `R`, requiring mod-id 2. -/
def fileR : File := ⟨31, ⟨1, "R", "root mod"⟩, "r.jar", 100, .release, "uR", [2]⟩

/-- The required dependency of `R`. -/
def fileD : File := ⟨32, ⟨2, "D", "dep mod"⟩, "d.jar", 90, .release, "uD", []⟩

/-- A dependency-store file required by no explicit mod. -/
def fileO : File := ⟨33, ⟨5, "O", "orphan mod"⟩, "o.jar", 80, .release, "uO", []⟩

/-- A sample pack: `R` explicit, `D` and `O` dependency-only. -/
def samplePack : ModPack :=
  ⟨⟨"Minecraft", "1.10.2"⟩, "mods", [(1, fileR)], [(2, fileD), (5, fileO)]⟩

/-- A sample pack with nothing installed. -/
def emptyPack : ModPack := ⟨⟨"Minecraft", "1.10.2"⟩, "mods", [], []⟩

/-- Witness for C9 at a concrete input: installing the solo mod into
the empty pack from the one-file tree. -/
theorem install_changes_head_installs_root_witness :
    ∃ cs, install_changes emptyPack ⟨7, "S", "solo mod"⟩ [soloFile] =
      .ok (FileChange.installation .mods soloFile :: cs) :=
  install_changes_head_installs_root emptyPack ⟨7, "S", "solo mod"⟩ soloFile []
    rfl rfl rfl

theorem runHeadsByName_subset :
    ∀ l : List Mod, ∀ x ∈ runHeadsByName l, x ∈ l := by
  intro l
  induction l using runHeadsByName.induct with
  | case1 => intro x hx; exact absurd hx (by rw [runHeadsByName]; simp)
  | case2 m rest ih =>
    intro x hx
    rw [runHeadsByName] at hx
    rcases List.mem_cons.mp hx with rfl | hx2
    · exact List.mem_cons_self _ _
    · have := ih x hx2
      exact List.mem_cons_of_mem _
        ((List.dropWhile_sublist (fun y => y.name == m.name)).subset this)

theorem name_ne_of_mem_dropWhileName (m : Mod) :
    ∀ rest : List Mod, rest.Pairwise (fun a b => a.name ≤ b.name) →
      (∀ y ∈ rest, m.name ≤ y.name) →
      ∀ x ∈ rest.dropWhile (fun y => y.name == m.name), x.name ≠ m.name := by
  intro rest
  induction rest with
  | nil =>
    intro _ _ x hx
    exact absurd hx (by simp)
  | cons y rest2 ih =>
    intro hpw hall x hx
    by_cases hp : (y.name == m.name) = true
    · rw [List.dropWhile_cons, if_pos hp] at hx
      exact ih (List.pairwise_cons.mp hpw).2
        (fun z hz => hall z (List.mem_cons_of_mem _ hz)) x hx
    · rw [List.dropWhile_cons, if_neg hp] at hx
      have hym : y.name ≠ m.name := by simpa using hp
      rcases List.mem_cons.mp hx with rfl | hx2
      · exact hym
      · have h1 : m.name < y.name :=
          lt_of_le_of_ne (hall y (List.mem_cons_self _ _)) (Ne.symm hym)
        have h2 : y.name ≤ x.name := (List.pairwise_cons.mp hpw).1 x hx2
        intro hxm
        rw [hxm] at h2
        exact absurd h2 (not_le.mpr h1)

theorem runHeadsByName_names_nodup :
    ∀ l : List Mod, l.Pairwise (fun a b => a.name ≤ b.name) →
      ((runHeadsByName l).map Mod.name).Nodup := by
  intro l
  induction l using runHeadsByName.induct with
  | case1 =>
    intro _
    rw [runHeadsByName]
    simp
  | case2 m rest ih =>
    intro hpw
    rw [runHeadsByName]
    have hrest : rest.Pairwise (fun a b => a.name ≤ b.name) :=
      (List.pairwise_cons.mp hpw).2
    have hall : ∀ y ∈ rest, m.name ≤ y.name := (List.pairwise_cons.mp hpw).1
    have hpw2 : (rest.dropWhile (fun y => y.name == m.name)).Pairwise
        (fun a b => a.name ≤ b.name) :=
      List.Pairwise.sublist (List.dropWhile_sublist _) hrest
    rw [List.map_cons, List.nodup_cons]
    constructor
    · intro hmem
      obtain ⟨u, hu, huname⟩ := List.exists_of_mem_map hmem
      have humem := runHeadsByName_subset _ u hu
      exact name_ne_of_mem_dropWhileName m rest hrest hall u humem huname
    · exact ih hpw2

theorem runHeadsByName_covers :
    ∀ l : List Mod, ∀ x ∈ l, ∃ u ∈ runHeadsByName l, u.name = x.name := by
  intro l
  induction l using runHeadsByName.induct with
  | case1 => intro x hx; exact absurd hx (List.not_mem_nil x)
  | case2 m rest ih =>
    intro x hx
    rw [runHeadsByName]
    rcases List.mem_cons.mp hx with rfl | hx2
    · exact ⟨x, List.mem_cons_self _ _, rfl⟩
    · have hsplit := List.takeWhile_append_dropWhile
        (p := fun y => y.name == m.name) (l := rest)
      by_cases hxt : x ∈ rest.takeWhile (fun y => y.name == m.name)
      · have hxm := List.mem_takeWhile_imp hxt
        have hxm2 : x.name = m.name := by simpa using hxm
        exact ⟨m, List.mem_cons_self _ _, hxm2.symm⟩
      · have hxd : x ∈ rest.dropWhile (fun y => y.name == m.name) := by
          have : x ∈ rest.takeWhile (fun y => y.name == m.name) ++
              rest.dropWhile (fun y => y.name == m.name) := by
            rw [hsplit]
            exact hx2
          rcases List.mem_append.mp this with h1 | h2
          · exact absurd h1 hxt
          · exact h2
        obtain ⟨u, hu, huname⟩ := ih x hxd
        exact ⟨u, List.mem_cons_of_mem _ hu, huname⟩

/-- Properties of `uniq_names`: output names are distinct, outputs
come from the input, and every input name is represented. -/
theorem uniq_names_props (l : List Mod) :
    ((uniq_names l).map Mod.name).Nodup ∧
    (∀ u ∈ uniq_names l, u ∈ l) ∧
    (∀ x ∈ l, ∃ u ∈ uniq_names l, u.name = x.name) := by
  have hperm := List.mergeSort_perm l (fun a b => decide (a.name ≤ b.name))
  have htrans : ∀ a b c : Mod, (decide (a.name ≤ b.name)) →
      (decide (b.name ≤ c.name)) → (decide (a.name ≤ c.name)) := by
    intro a b c hab hbc
    simp only [decide_eq_true_eq] at hab hbc ⊢
    exact le_trans hab hbc
  have htotal : ∀ a b : Mod,
      ((decide (a.name ≤ b.name)) || (decide (b.name ≤ a.name))) = true := by
    intro a b
    simpa using le_total a.name b.name
  have hsorted := List.sorted_mergeSort htrans htotal l
  have hsorted2 : (l.mergeSort (fun a b => decide (a.name ≤ b.name))).Pairwise
      (fun a b => a.name ≤ b.name) := by
    refine hsorted.imp ?_
    intro a b h
    simpa using h
  refine ⟨runHeadsByName_names_nodup _ hsorted2, ?_, ?_⟩
  · intro u hu
    exact hperm.mem_iff.mp (runHeadsByName_subset _ u hu)
  · intro x hx
    exact runHeadsByName_covers _ x (hperm.mem_iff.mpr hx)

theorem removeHead_shape (mp : ModPack) (mod : Mod) :
    removeHead mp mod = .error .KeyError ∨ ∃ cs, removeHead mp mod = .ok cs := by
  rw [removeHead]
  cases halk : alookup mod.id mp.mods with
  | some main =>
    dsimp only
    cases hrm : FileChange.removal mp main with
    | some ch => exact Or.inr ⟨_, rfl⟩
    | none => exact Or.inl rfl
  | none => exact Or.inr ⟨_, rfl⟩

theorem removeTail_shape (mp : ModPack) (mod : Mod) :
    removeTail mp mod = .error .KeyError ∨ ∃ cs, removeTail mp mod = .ok cs := by
  rw [removeTail]
  rcases removeHead_shape mp mod with hk | ⟨cs, hok⟩
  · rw [hk]
    exact Or.inl rfl
  · rw [hok]
    dsimp only
    cases horp : orphans mp (aerase mod.id mp.mods) with
    | none => exact Or.inl rfl
    | some os =>
      dsimp only
      cases hmm : os.mapM (fun o => FileChange.removal mp o) with
      | none => exact Or.inl rfl
      | some removals => exact Or.inr ⟨_, rfl⟩

/-- C7: `remove_changes` fails with `NotInstalled` exactly when the
mod-id is not installed; when installed, it fails with
`WouldBrokeDependency` exactly when some installed file declares the
mod-id as a dependency, carrying the requested mod as culprit and the
dependents de-duplicated by mod name (distinct names, drawn from and
covering the dependent list); the planner is pure, so failures return
an error and no changes. -/
theorem remove_changes_failure_modes (mp : ModPack) (mod : Mod) :
    (remove_changes mp mod = .error (.NotInstalled mod.name) ↔
      installedGet mp mod.id = none) ∧
    ((installedGet mp mod.id).isSome →
      ((∃ culprit others, remove_changes mp mod =
          .error (.WouldBrokeDependency culprit others)) ↔
        ∃ f ∈ installedValues mp, mod.id ∈ f.dependencies)) ∧
    ((installedGet mp mod.id).isSome → brokenDeps mp mod ≠ [] →
      remove_changes mp mod =
        .error (.WouldBrokeDependency mod (uniq_names (brokenDeps mp mod)))) ∧
    ((uniq_names (brokenDeps mp mod)).map Mod.name).Nodup ∧
    (∀ u ∈ uniq_names (brokenDeps mp mod), u ∈ brokenDeps mp mod) ∧
    (∀ x ∈ brokenDeps mp mod, ∃ u ∈ uniq_names (brokenDeps mp mod),
      u.name = x.name) ∧
    (brokenDeps mp mod ≠ [] ↔ ∃ f ∈ installedValues mp, mod.id ∈ f.dependencies) := by
  have hbr_iff : brokenDeps mp mod ≠ [] ↔
      ∃ f ∈ installedValues mp, mod.id ∈ f.dependencies := by
    rw [brokenDeps]
    constructor
    · intro hne
      obtain ⟨x, hx⟩ := List.exists_mem_of_ne_nil _ hne
      obtain ⟨f, hf, _⟩ := List.exists_of_mem_map hx
      have := List.mem_filter.mp hf
      exact ⟨f, this.1, by simpa using this.2⟩
    · rintro ⟨f, hfv, hfd⟩ hnil
      have : f.mod ∈ ((installedValues mp).filter
          (fun f => decide (mod.id ∈ f.dependencies))).map File.mod :=
        List.mem_map_of_mem _ (List.mem_filter.mpr ⟨hfv, by simpa using hfd⟩)
      rw [hnil] at this
      exact absurd this (List.not_mem_nil _)
  have hthird : (installedGet mp mod.id).isSome → brokenDeps mp mod ≠ [] →
      remove_changes mp mod =
        .error (.WouldBrokeDependency mod (uniq_names (brokenDeps mp mod))) := by
    intro hin hbr
    obtain ⟨v, hv⟩ := Option.isSome_iff_exists.mp hin
    rw [remove_changes, hv]
    rw [if_neg (by simp)]
    rw [if_pos hbr]
  obtain ⟨hnn, hsub, hcov⟩ := uniq_names_props (brokenDeps mp mod)
  refine ⟨?_, ?_, hthird, hnn, hsub, hcov, hbr_iff⟩
  · by_cases hin : installedGet mp mod.id = none
    · rw [remove_changes, hin]
      simp [hin]
    · have hins : (installedGet mp mod.id).isSome := by
        cases h : installedGet mp mod.id with
        | none => exact absurd h hin
        | some v => rfl
      constructor
      · intro herr
        by_cases hbr : brokenDeps mp mod ≠ []
        · rw [hthird hins hbr] at herr
          exact PackError.noConfusion (Except.error.inj herr)
        · obtain ⟨v, hv⟩ := Option.isSome_iff_exists.mp hins
          rw [remove_changes, hv, if_neg (by simp), if_neg hbr] at herr
          rcases removeTail_shape mp mod with hk | ⟨cs, hok⟩
          · rw [hk] at herr
            exact PackError.noConfusion (Except.error.inj herr)
          · rw [hok] at herr
            exact absurd herr (by simp)
      · intro h
        exact absurd h hin
  · intro hins
    constructor
    · rintro ⟨culprit, others, herr⟩
      rw [← hbr_iff]
      intro hbr
      obtain ⟨v, hv⟩ := Option.isSome_iff_exists.mp hins
      rw [remove_changes, hv, if_neg (by simp), if_neg (by simpa using hbr)] at herr
      rcases removeTail_shape mp mod with hk | ⟨cs, hok⟩
      · rw [hk] at herr
        exact PackError.noConfusion (Except.error.inj herr)
      · rw [hok] at herr
        exact absurd herr (by simp)
    · intro hex
      exact ⟨mod, uniq_names (brokenDeps mp mod), hthird hins (hbr_iff.mpr hex)⟩

/-- Witness for C7 at a concrete input: removing the dependency `D`
from the sample pack, where the explicit mod `R` still requires it. -/
theorem remove_changes_failure_modes_witness :
    (remove_changes samplePack ⟨2, "D", "dep mod"⟩ =
        .error (.NotInstalled "D") ↔
      installedGet samplePack 2 = none) ∧
    ((installedGet samplePack 2).isSome →
      ((∃ culprit others, remove_changes samplePack ⟨2, "D", "dep mod"⟩ =
          .error (.WouldBrokeDependency culprit others)) ↔
        ∃ f ∈ installedValues samplePack, 2 ∈ f.dependencies)) ∧
    ((installedGet samplePack 2).isSome →
      brokenDeps samplePack ⟨2, "D", "dep mod"⟩ ≠ [] →
      remove_changes samplePack ⟨2, "D", "dep mod"⟩ =
        .error (.WouldBrokeDependency ⟨2, "D", "dep mod"⟩
          (uniq_names (brokenDeps samplePack ⟨2, "D", "dep mod"⟩)))) ∧
    ((uniq_names (brokenDeps samplePack ⟨2, "D", "dep mod"⟩)).map Mod.name).Nodup ∧
    (∀ u ∈ uniq_names (brokenDeps samplePack ⟨2, "D", "dep mod"⟩),
      u ∈ brokenDeps samplePack ⟨2, "D", "dep mod"⟩) ∧
    (∀ x ∈ brokenDeps samplePack ⟨2, "D", "dep mod"⟩,
      ∃ u ∈ uniq_names (brokenDeps samplePack ⟨2, "D", "dep mod"⟩),
        u.name = x.name) ∧
    (brokenDeps samplePack ⟨2, "D", "dep mod"⟩ ≠ [] ↔
      ∃ f ∈ installedValues samplePack, 2 ∈ f.dependencies) :=
  remove_changes_failure_modes samplePack ⟨2, "D", "dep mod"⟩

/-- Content and modification time of one on-disk file. -/
structure FData where
  content : Nat
  mtime : Nat
deriving DecidableEq

/-- State acted on by the change executor: the pack metadata (the
`pack` attribute of the source `FileChange`) plus the filesystem as a
map from full paths to file data. -/
structure PackState where
  pack : ModPack
  fs : List (String × FData)
deriving DecidableEq

/-- Replace the filesystem component. -/
def PackState.setFs (st : PackState) (fs : List (String × FData)) : PackState :=
  { st with fs := fs }

/-- Replace one store of the pack component. -/
def setStoreSt (st : PackState) (r : StoreRef) (s : List (Nat × File)) : PackState :=
  { st with pack := setStore st.pack r s }

/-- Full path of a file in the pack directory (`self.pack.path / name`). -/
def fullPath (st : PackState) (name : String) : String :=
  st.pack.path ++ "/" ++ name

/-- `FileChange.tmp_path` base name: `'.'.join([name, 'disabled'])`. -/
def tmpName (name : String) : String :=
  name ++ ".disabled"

/-- `FileChange.__store_change`: `self.destination != self.source`.
Python compares the store objects by content (`OrderedDict` equality,
`None` unequal to any store), so the check is evaluated against the
stores' current contents. -/
def storeChangeB (c : FileChange) (st : PackState) : Bool :=
  decide (c.destination.map (getStore st.pack) ≠ c.source.map (getStore st.pack))

/-- `Path.rename`: fails (`FileNotFoundError`) when the source is
absent; silently replaces the destination. -/
def fsRename (fs : List (String × FData)) (src dst : String) :
    Option (List (String × FData)) :=
  match alookup src fs with
  | none => none
  | some v => some (ainsert dst v (aerase src fs))

/-- `Path.unlink`: fails (`FileNotFoundError`) when the path is absent. -/
def fsUnlink (fs : List (String × FData)) (p : String) :
    Option (List (String × FData)) :=
  if (alookup p fs).isSome then some (aerase p fs) else none

/-- Source block of `FileChange.__enter__`: with a valid source,
remove the old entry from a changing source store (`KeyError` when the
key is absent), then rename the old file aside to its `.disabled`
sibling when the on-disk file identity changes. -/
def enterSourceBlock (c : FileChange) (st : PackState) : Option PackState :=
  match c.source, c.old_file with
  | some src, some oldf =>
    let st1opt : Option PackState :=
      if storeChangeB c st then
        if (alookup oldf.mod.id (getStore st.pack src)).isSome then
          some (setStoreSt st src (aerase oldf.mod.id (getStore st.pack src)))
        else none
      else some st
    match st1opt with
    | none => none
    | some st1 =>
      if fileChangeB c then
        match fsRename st1.fs (fullPath st1 oldf.name)
            (fullPath st1 (tmpName oldf.name)) with
        | none => none
        | some fs2 => some (st1.setFs fs2)
      else some st1
  | _, _ => some st

/-- The value `FileChange.__enter__` yields: the new file when there
is a valid destination and the on-disk file identity changes,
otherwise nothing (no download required). -/
def yieldFile (c : FileChange) : Option File :=
  match c.destination, c.new_file with
  | some _, some nf => if fileChangeB c then some nf else none
  | _, _ => none

/-- `FileChange.__enter__`. -/
def FileChange.enter (c : FileChange) (st : PackState) :
    Option (PackState × Option File) :=
  (enterSourceBlock c st).map (fun st1 => (st1, yieldFile c))

/-- `FileChange.__exit__`, success path: insert the new file into a
valid destination store, then delete the temporary `.disabled` file
when one was created. -/
def FileChange.exitSuccess (c : FileChange) (st : PackState) : Option PackState :=
  let st1 :=
    match c.destination, c.new_file with
    | some dst, some nf =>
      setStoreSt st dst (ainsert nf.mod.id nf (getStore st.pack dst))
    | _, _ => st
  match c.source, c.old_file with
  | some _, some oldf =>
    if fileChangeB c then
      match fsUnlink st1.fs (fullPath st1 (tmpName oldf.name)) with
      | none => none
      | some fs2 => some (st1.setFs fs2)
    else some st1
  | _, _ => some st1

/-- `FileChange.__exit__`, failure path: delete the partially written
new file (missing file ignored), rename the temporary back, and
re-insert the old entry when the store had changed (`__store_change`
re-evaluated against the current stores). -/
def FileChange.exitFailure (c : FileChange) (st : PackState) : Option PackState :=
  let st1 :=
    match c.destination, c.new_file with
    | some _, some nf =>
      if fileChangeB c then st.setFs (aerase (fullPath st nf.name) st.fs) else st
    | _, _ => st
  match c.source, c.old_file with
  | some src, some oldf =>
    let st2opt : Option PackState :=
      if fileChangeB c then
        match fsRename st1.fs (fullPath st1 (tmpName oldf.name))
            (fullPath st1 oldf.name) with
        | none => none
        | some fs2 => some (st1.setFs fs2)
      else some st1
    match st2opt with
    | none => none
    | some st2 =>
      some (if storeChangeB c st2 then
              setStoreSt st2 src (ainsert oldf.mod.id oldf (getStore st2.pack src))
            else st2)
  | _, _ => some st1

/-- `ModPack.fetch` against a download oracle `dl` (`none` models a
transport error): skip when the target exists with an up-to-date
mtime, otherwise download the content and write it with mtime
`file.date`.  The pack directory itself is assumed to exist. -/
def fetchModel (dl : File → Option Nat) (st : PackState) (f : File) :
    Option PackState :=
  match alookup (fullPath st f.name) st.fs with
  | some d =>
    if d.mtime = f.date then some st
    else
      match dl f with
      | none => none
      | some content =>
        some (st.setFs (ainsert (fullPath st f.name) ⟨content, f.date⟩ st.fs))
  | none =>
    match dl f with
    | none => none
    | some content =>
      some (st.setFs (ainsert (fullPath st f.name) ⟨content, f.date⟩ st.fs))

/-- Unwind a stack of entered changes on the success path, most
recently entered first (`ExitStack` pops in LIFO order). -/
def exitAllSuccess : List FileChange → PackState → Option PackState
  | [], st => some st
  | c :: rest, st =>
    match c.exitSuccess st with
    | none => none
    | some st2 => exitAllSuccess rest st2

/-- Unwind a stack of entered changes on the failure path, most
recently entered first. -/
def exitAllFailure : List FileChange → PackState → Option PackState
  | [], st => some st
  | c :: rest, st =>
    match c.exitFailure st with
    | none => none
    | some st2 => exitAllFailure rest st2

/-- `ModPack.apply` with its `ExitStack`: enter each change in order
and fetch the yielded file, keeping a stack of entered changes.  On
normal completion every entered change is exited on the success path
in LIFO order.  When entering or fetching raises, every entered change
is exited on the failure path in LIFO order and the error propagates:
`.error` carries the state after the unwind (`none` inside when an
exit itself raised). -/
def applyGo (dl : File → Option Nat) (entered : List FileChange)
    (st : PackState) : List FileChange → Except (Option PackState) PackState
  | [] =>
    match exitAllSuccess entered st with
    | some st2 => .ok st2
    | none => .error none
  | c :: rest =>
    match c.enter st with
    | none => .error (exitAllFailure entered st)
    | some (st1, none) => applyGo dl (c :: entered) st1 rest
    | some (st1, some nf) =>
      match fetchModel dl st1 nf with
      | some st2 => applyGo dl (c :: entered) st2 rest
      | none => .error (exitAllFailure (c :: entered) st1)

/-- `ModPack.apply(changes)` against the download oracle `dl`. -/
def applyModel (dl : File → Option Nat) (st : PackState)
    (changes : List FileChange) : Except (Option PackState) PackState :=
  applyGo dl [] st changes

/-- Base name of the new file of a change (empty when absent). -/
def newName (c : FileChange) : String :=
  match c.new_file with
  | some f => f.name
  | none => ""

/-- Full path the new file of a change is downloaded to. -/
def newTarget (st : PackState) (c : FileChange) : String :=
  fullPath st (newName c)

theorem enter_install (r : StoreRef) (f : File) (st : PackState) :
    (FileChange.installation r f).enter st = some (st, some f) := by
  rw [FileChange.enter, enterSourceBlock, yieldFile]
  simp [FileChange.installation, fileChangeB]

theorem exitFailure_install (r : StoreRef) (f : File) (st : PackState) :
    (FileChange.installation r f).exitFailure st =
      some (st.setFs (aerase (fullPath st f.name) st.fs)) := by
  rw [FileChange.exitFailure]
  simp [FileChange.installation, fileChangeB]

theorem exitAllFailure_install :
    ∀ (entered : List FileChange) (st : PackState),
      (∀ c ∈ entered, ∃ r f, c = FileChange.installation r f) →
      exitAllFailure entered st =
        some (st.setFs
          (entered.foldl (fun fs c => aerase (newTarget st c) fs) st.fs)) := by
  intro entered
  induction entered with
  | nil =>
    intro st hsh
    rw [exitAllFailure]
    cases st
    rfl
  | cons c rest ih =>
    intro st hsh
    obtain ⟨r, f, rfl⟩ := hsh c (List.mem_cons_self _ _)
    rw [exitAllFailure, exitFailure_install]
    dsimp only
    have hrest := ih (st.setFs (aerase (fullPath st f.name) st.fs))
      (fun c2 hc2 => hsh c2 (List.mem_cons_of_mem _ hc2))
    rw [hrest]
    rfl

theorem fetch_of_absent {dl : File → Option Nat} {st : PackState} {f : File}
    (h : alookup (fullPath st f.name) st.fs = none) :
    fetchModel dl st f =
      match dl f with
      | none => none
      | some content =>
        some (st.setFs (ainsert (fullPath st f.name) ⟨content, f.date⟩ st.fs)) := by
  rw [fetchModel, h]

theorem applyGo_install_rollback (dl : File → Option Nat) (stIni : PackState) :
    ∀ (cs entered : List FileChange) (st : PackState),
      (∀ c ∈ cs, ∃ r f, c = FileChange.installation r f) →
      (∀ c ∈ entered, ∃ r f, c = FileChange.installation r f) →
      st.pack = stIni.pack →
      entered.foldl (fun fs c => aerase (newTarget stIni c) fs) st.fs = stIni.fs →
      (∀ c ∈ cs, alookup (newTarget stIni c) st.fs = none) →
      (cs.map (newTarget stIni)).Nodup →
      (∃ c ∈ cs, ∃ f, c.new_file = some f ∧ dl f = none) →
      applyGo dl entered st cs = .error (some stIni) := by
  intro cs
  induction cs with
  | nil =>
    intro entered st hsh hshe hpack hfold habs hnd hfail
    obtain ⟨c, hc, _⟩ := hfail
    exact absurd hc (List.not_mem_nil c)
  | cons c rest ih =>
    intro entered st hsh hshe hpack hfold habs hnd hfail
    obtain ⟨r, f, rfl⟩ := hsh c (List.mem_cons_self _ _)
    have htgt : newTarget st (FileChange.installation r f) =
        newTarget stIni (FileChange.installation r f) := by
      rw [newTarget, newTarget, fullPath, fullPath, hpack]
    have htgtname : fullPath st f.name = newTarget stIni (FileChange.installation r f) := by
      rw [← htgt]
      rfl
    have habsc : alookup (fullPath st f.name) st.fs = none := by
      rw [htgtname]
      exact habs _ (List.mem_cons_self _ _)
    rw [applyGo, enter_install]
    dsimp only
    rw [fetch_of_absent habsc]
    cases hdl : dl f with
    | none =>
      rw [exitAllFailure_install (FileChange.installation r f :: entered) st
        (by
          intro c2 hc2
          rcases List.mem_cons.mp hc2 with rfl | hc3
          · exact ⟨r, f, rfl⟩
          · exact hshe c2 hc3)]
      have hstep : (FileChange.installation r f :: entered).foldl
          (fun fs c => aerase (newTarget st c) fs) st.fs =
          entered.foldl (fun fs c => aerase (newTarget st c) fs) st.fs := by
        rw [List.foldl_cons, htgt,
          aerase_of_none (htgtname ▸ habsc)]
      have hsame : ∀ (l : List FileChange) (fs : List (String × FData)),
          l.foldl (fun a c => aerase (newTarget st c) a) fs =
          l.foldl (fun a c => aerase (newTarget stIni c) a) fs := by
        intro l
        induction l with
        | nil => intro fs; rfl
        | cons x xs ihx =>
          intro fs
          rw [List.foldl_cons, List.foldl_cons, ihx]
          have : newTarget st x = newTarget stIni x := by
            rw [newTarget, newTarget, fullPath, fullPath, hpack]
          rw [this]
      rw [hstep, hsame, hfold]
      have : st.setFs stIni.fs = stIni := by
        cases st
        cases stIni
        simp_all [PackState.setFs]
      rw [this]
    | some content =>
      set st2 := st.setFs
        (ainsert (fullPath st f.name) ⟨content, f.date⟩ st.fs) with hst2
      refine ih (FileChange.installation r f :: entered) st2
        (fun c2 hc2 => hsh c2 (List.mem_cons_of_mem _ hc2))
        (by
          intro c2 hc2
          rcases List.mem_cons.mp hc2 with rfl | hc3
          · exact ⟨r, f, rfl⟩
          · exact hshe c2 hc3)
        hpack ?_ ?_ (List.Nodup.of_cons hnd) ?_
      · rw [List.foldl_cons]
        have herase : aerase (newTarget stIni (FileChange.installation r f)) st2.fs =
            st.fs := by
          rw [hst2]
          show aerase (newTarget stIni (FileChange.installation r f))
            (ainsert (fullPath st f.name) ⟨content, f.date⟩ st.fs) = st.fs
          rw [← htgtname]
          exact aerase_ainsert_of_none _ habsc
        rw [herase]
        exact hfold
      · intro c2 hc2
        have hne : newTarget stIni c2 ≠ newTarget stIni (FileChange.installation r f) := by
          intro heq
          rw [List.map_cons] at hnd
          exact (List.nodup_cons.mp hnd).1 (heq ▸ List.mem_map_of_mem _ hc2)
        show alookup (newTarget stIni c2) st2.fs = none
        rw [hst2]
        show alookup (newTarget stIni c2)
          (ainsert (fullPath st f.name) ⟨content, f.date⟩ st.fs) = none
        rw [← htgtname] at hne
        rw [alookup_ainsert_ne hne]
        exact habs c2 (List.mem_cons_of_mem _ hc2)
      · obtain ⟨c0, hc0, f0, hf0, hdl0⟩ := hfail
        rcases List.mem_cons.mp hc0 with rfl | hc1
        · have : f0 = f := by
            have : (FileChange.installation r f).new_file = some f := rfl
            rw [this] at hf0
            injection hf0 with h2
            exact h2.symm
          rw [this] at hdl0
          rw [hdl0] at hdl
          exact absurd hdl (by simp)
        · exact ⟨c0, hc1, f0, hf0, hdl0⟩

/-- Amended C1: when applying a sequence of installation changes of
files not previously on disk (distinct target paths) and some download
fails, `ExitStack` exits every entered change — the failing one and
every change before it — with the exception, so each is rolled back and
no later change executes: the final state is exactly the initial one. -/
theorem apply_failure_rolls_back_batch (dl : File → Option Nat)
    (stIni : PackState) (cs : List FileChange)
    (hshape : ∀ c ∈ cs, ∃ r f, c = FileChange.installation r f)
    (habsent : ∀ c ∈ cs, alookup (newTarget stIni c) stIni.fs = none)
    (hnodup : (cs.map (newTarget stIni)).Nodup)
    (hfail : ∃ c ∈ cs, ∃ f, c.new_file = some f ∧ dl f = none) :
    applyModel dl stIni cs = .error (some stIni) :=
  applyGo_install_rollback dl stIni cs [] stIni hshape
    (fun c hc => absurd hc (List.not_mem_nil c)) rfl rfl habsent hnodup hfail

/-- A first concrete file to install. -/
def instFileA : File := ⟨41, ⟨8, "IA", "first install"⟩, "ia.jar", 100, .release, "uIA", []⟩

/-- A second concrete file to install, whose download will fail. -/
def instFileB : File := ⟨42, ⟨9, "IB", "second install"⟩, "ib.jar", 200, .release, "uIB", []⟩

/-- Initial empty state for the batch counterexample. -/
def st0 : PackState := ⟨emptyPack, []⟩

/-- Download oracle that succeeds for `instFileA` and fails for
everything else. -/
def dlFailB : File → Option Nat := fun f => if f.id = 41 then some 7 else none

/-- C1 counterexample: in a two-installation batch whose second
download fails, the earlier change does NOT remain committed — the
final state is the initial one, whose `mods` store is empty and whose
filesystem does not hold the first file, contradicting the claim that
changes before the failing one keep their new file in the destination
store and on disk. -/
theorem apply_earlier_change_not_committed :
    applyModel dlFailB st0
      [FileChange.installation .mods instFileA,
       FileChange.installation .deps instFileB] = .error (some st0) ∧
    st0.pack.mods = [] ∧
    alookup (fullPath st0 instFileA.name) st0.fs = none := by
  refine ⟨rfl, rfl, rfl⟩

/-- Witness for the amended C1 at the concrete two-change batch. -/
theorem apply_failure_rolls_back_batch_witness :
    applyModel dlFailB st0
      [FileChange.installation .mods instFileA,
       FileChange.installation .deps instFileB] = .error (some st0) :=
  apply_failure_rolls_back_batch dlFailB st0
    [FileChange.installation .mods instFileA,
     FileChange.installation .deps instFileB]
    (by
      intro c hc
      rcases List.mem_cons.mp hc with rfl | hc2
      · exact ⟨.mods, instFileA, rfl⟩
      · obtain rfl : c = FileChange.installation .deps instFileB := by
          simpa using hc2
        exact ⟨.deps, instFileB, rfl⟩)
    (by
      intro c hc
      rcases List.mem_cons.mp hc with rfl | hc2
      · rfl
      · obtain rfl : c = FileChange.installation .deps instFileB := by
          simpa using hc2
        rfl)
    (by decide)
    ⟨FileChange.installation .deps instFileB, by simp, instFileB, rfl, rfl⟩

/-- C10: entering and successfully exiting a mark-explicit change
(source `dependencies`, destination `mods`, `old_file == new_file`)
performs no filesystem operation and asks for no download (enter
yields nothing): only the two stores change — the entry moves from
`dependencies` to `mods` — while the path, the game and every other
store entry stay as they were. -/
theorem explicit_change_pure_metadata (st : PackState) (f : File)
    (hdep : alookup f.mod.id st.pack.dependencies = some f)
    (hmods : alookup f.mod.id st.pack.mods = none) :
    ∃ st1 st2,
      (FileChange.explicit f).enter st = some (st1, none) ∧
      st1.fs = st.fs ∧
      (FileChange.explicit f).exitSuccess st1 = some st2 ∧
      st2.fs = st.fs ∧
      st2.pack.path = st.pack.path ∧
      st2.pack.game = st.pack.game ∧
      st2.pack.dependencies = aerase f.mod.id st.pack.dependencies ∧
      st2.pack.mods = st.pack.mods ++ [(f.mod.id, f)] := by
  have hstch : storeChangeB (FileChange.explicit f) st = true := by
    rw [storeChangeB]
    rw [decide_eq_true_iff]
    intro heq
    have heq2 : st.pack.mods = st.pack.dependencies := by
      have := heq
      simp only [FileChange.explicit, Option.map_some, getStore] at this
      injection this
    rw [heq2] at hmods
    rw [hmods] at hdep
    exact absurd hdep (by simp)
  have hfch : fileChangeB (FileChange.explicit f) = false := by
    simp [fileChangeB, FileChange.explicit]
  have hlk : (alookup f.mod.id (getStore st.pack StoreRef.deps)).isSome = true := by
    rw [getStore, hdep]
    rfl
  have henter : (FileChange.explicit f).enter st =
      some (setStoreSt st .deps (aerase f.mod.id st.pack.dependencies), none) := by
    rw [FileChange.enter, enterSourceBlock, yieldFile]
    simp only [FileChange.explicit] at hstch hfch ⊢
    simp only [hstch, hfch, hlk, if_true, Bool.false_eq_true, if_false,
      Option.map_some]
    rfl
  have hexit : (FileChange.explicit f).exitSuccess
      (setStoreSt st .deps (aerase f.mod.id st.pack.dependencies)) =
      some (setStoreSt (setStoreSt st .deps (aerase f.mod.id st.pack.dependencies))
        .mods (ainsert f.mod.id f st.pack.mods)) := by
    rw [FileChange.exitSuccess]
    simp only [FileChange.explicit] at hfch ⊢
    simp only [hfch, Bool.false_eq_true, if_false]
    rfl
  refine ⟨setStoreSt st .deps (aerase f.mod.id st.pack.dependencies),
    setStoreSt (setStoreSt st .deps (aerase f.mod.id st.pack.dependencies))
      .mods (ainsert f.mod.id f st.pack.mods),
    henter, rfl, hexit, rfl, rfl, rfl, rfl, ?_⟩
  show ainsert f.mod.id f st.pack.mods = st.pack.mods ++ [(f.mod.id, f)]
  exact ainsert_of_none f hmods

theorem fullPath_tmpName_ne (st : PackState) (n : String) :
    fullPath st (tmpName n) ≠ fullPath st n := by
  intro h
  have hlen := congrArg String.length h
  have h9 : (".disabled" : String).length = 9 := rfl
  simp [fullPath, tmpName, String.length_append, h9] at hlen

/-- C8: an upgrade-shaped change (same store, `old_file ≠ new_file`)
whose body fails after partially writing the new file is fully rolled
back by `__exit__`: the partial write at `path/new_file.name` is
removed, the `.disabled` temporary is renamed back so the old file is
present under its original name with its original content, the stores
are untouched (so `old_file.mod.id` still maps as before; the store
did not change for an upgrade), and no `.disabled` file remains — the
filesystem map equals the pre-change one. -/
theorem upgrade_change_rolls_back (st : PackState) (r : StoreRef) (fo fn : File)
    (content mt : Nat) (v : FData)
    (hne : fn ≠ fo)
    (hold : alookup (fullPath st fo.name) st.fs = some v)
    (htmp : alookup (fullPath st (tmpName fo.name)) st.fs = none)
    (hnewtmp : fullPath st fn.name ≠ fullPath st (tmpName fo.name))
    (hnew : fullPath st fn.name = fullPath st fo.name ∨
      alookup (fullPath st fn.name) st.fs = none) :
    ∃ st1 st3,
      (⟨some r, some fo, some r, some fn⟩ : FileChange).enter st =
        some (st1, some fn) ∧
      (⟨some r, some fo, some r, some fn⟩ : FileChange).exitFailure
        (st1.setFs (ainsert (fullPath st fn.name) ⟨content, mt⟩ st1.fs)) =
        some st3 ∧
      st3.pack = st.pack ∧
      (∀ p, alookup p st3.fs = alookup p st.fs) ∧
      alookup (fullPath st (tmpName fo.name)) st3.fs = none ∧
      alookup (fullPath st fo.name) st3.fs = some v := by
  have htmpold : fullPath st (tmpName fo.name) ≠ fullPath st fo.name :=
    fullPath_tmpName_ne st fo.name
  have hstch : ∀ st2 : PackState,
      storeChangeB (⟨some r, some fo, some r, some fn⟩ : FileChange) st2 = false := by
    intro st2
    simp [storeChangeB]
  have hfch : fileChangeB (⟨some r, some fo, some r, some fn⟩ : FileChange) = true := by
    simp [fileChangeB]
    exact hne
  set oldT := fullPath st fo.name with holdT
  set tmpT := fullPath st (tmpName fo.name) with htmpT
  set newT := fullPath st fn.name with hnewT
  set fs1 := ainsert tmpT v (aerase oldT st.fs) with hfs1
  have henter : (⟨some r, some fo, some r, some fn⟩ : FileChange).enter st =
      some (st.setFs fs1, some fn) := by
    rw [FileChange.enter, enterSourceBlock, yieldFile]
    simp only [hstch st, hfch, Bool.false_eq_true, if_false, if_true]
    rw [show fullPath st fo.name = oldT from rfl,
      show fullPath st (tmpName fo.name) = tmpT from rfl]
    rw [fsRename, hold]
    simp only [Option.map_some]
    rfl
  have hnofs1 : alookup newT fs1 = none := by
    rw [hfs1, alookup_ainsert_ne hnewtmp]
    rcases hnew with heq | habs
    · rw [heq]
      exact alookup_aerase_self _ _
    · have hnoldne : newT ≠ oldT := by
        intro h
        rw [h, hold] at habs
        exact absurd habs (by simp)
      rw [alookup_aerase_ne hnoldne]
      exact habs
  have htmpX : alookup tmpT (aerase oldT st.fs) = none := by
    rw [alookup_aerase_ne htmpold]
    exact htmp
  have hexit : (⟨some r, some fo, some r, some fn⟩ : FileChange).exitFailure
      ((st.setFs fs1).setFs (ainsert newT ⟨content, mt⟩ fs1)) =
      some ((st.setFs fs1).setFs (ainsert oldT v (aerase oldT st.fs))) := by
    rw [FileChange.exitFailure]
    simp only [hfch, if_true]
    rw [show fullPath ((st.setFs fs1).setFs (ainsert newT ⟨content, mt⟩ fs1)) fn.name
        = newT from rfl]
    rw [show ((st.setFs fs1).setFs (ainsert newT ⟨content, mt⟩ fs1)).fs
        = ainsert newT ⟨content, mt⟩ fs1 from rfl]
    rw [aerase_ainsert_of_none _ hnofs1]
    rw [show fullPath (((st.setFs fs1).setFs (ainsert newT ⟨content, mt⟩ fs1)).setFs fs1)
        (tmpName fo.name) = tmpT from rfl]
    rw [show fullPath (((st.setFs fs1).setFs (ainsert newT ⟨content, mt⟩ fs1)).setFs fs1)
        fo.name = oldT from rfl]
    rw [show (((st.setFs fs1).setFs (ainsert newT ⟨content, mt⟩ fs1)).setFs fs1).fs
        = fs1 from rfl]
    rw [fsRename, hfs1, alookup_ainsert_self]
    rw [show aerase tmpT (ainsert tmpT v (aerase oldT st.fs)) = aerase oldT st.fs from
      aerase_ainsert_of_none v htmpX]
    dsimp only
    rw [hstch]
    simp only [Bool.false_eq_true, if_false]
    rfl
  have hfin : ∀ p, alookup p (ainsert oldT v (aerase oldT st.fs)) = alookup p st.fs := by
    intro p
    by_cases hp : p = oldT
    · rw [hp, alookup_ainsert_self, hold]
    · rw [alookup_ainsert_ne hp, alookup_aerase_ne hp]
  refine ⟨st.setFs fs1,
    (st.setFs fs1).setFs (ainsert oldT v (aerase oldT st.fs)),
    henter, hexit, rfl, hfin, ?_, ?_⟩
  · rw [show ((st.setFs fs1).setFs (ainsert oldT v (aerase oldT st.fs))).fs
        = ainsert oldT v (aerase oldT st.fs) from rfl]
    rw [hfin tmpT]
    exact htmp
  · rw [show ((st.setFs fs1).setFs (ainsert oldT v (aerase oldT st.fs))).fs
        = ainsert oldT v (aerase oldT st.fs) from rfl]
    rw [hfin oldT]
    exact hold

/-- Witness for C6 at a concrete input: the sample pack, whose
installed pool covers the one transitive dependency of `R`. -/
theorem orphans_spec_witness :
    ∃ needed, neededMap samplePack samplePack.mods = some needed ∧
      (∀ i, (alookup i needed).isSome ↔
        ∃ p ∈ samplePack.mods, ∃ r,
          resolve p.2 (installedPool samplePack) = some r ∧
            i ∈ r.map Prod.fst) ∧
      (∀ i, (alookup i needed).isSome ↔
        ∃ p ∈ samplePack.mods, Reach p.2 (installedPool samplePack) i) ∧
      orphans samplePack samplePack.mods =
        some ((samplePack.dependencies.filter
          (fun p => (alookup p.1 needed).isNone)).map Prod.snd) :=
  orphans_spec samplePack samplePack.mods (by
    intro p hp d hreach hne
    have hp1 : p = (1, fileR) := by simpa [samplePack] using hp
    subst hp1
    have h12 : d = 1 ∨ d = 2 := by
      clear hne
      induction hreach with
      | root => exact Or.inl rfl
      | start hmem =>
        right
        simpa [fileR] using hmem
      | step hr hne2 hpl hdep ih =>
        rename_i e f
        rcases ih with rfl | rfl
        · exact absurd rfl hne2
        · have hf : f = fileD := by
            have h2 := hpl
            simp [installedPool, samplePack, alookup, fileR, fileD, fileO] at h2
            exact h2.symm
          rw [hf] at hdep
          exact absurd hdep (by simp [fileD])
    rcases h12 with rfl | rfl
    · exact absurd rfl hne
    · rfl)

/-- A second concrete file of the same mod as `D`, for the upgrade
rollback witness. -/
def fileD2 : File := ⟨34, ⟨2, "D", "dep mod"⟩, "d2.jar", 95, .release, "uD2", []⟩

/-- Witness for C8 at a concrete input: upgrading `D` to `D2` in the
sample pack with the old file on disk, rolled back after a partial
write of the new file. -/
theorem upgrade_change_rolls_back_witness :
    ∃ st1 st3,
      (⟨some StoreRef.deps, some fileD, some StoreRef.deps, some fileD2⟩ :
          FileChange).enter
        ⟨samplePack, [("mods/d.jar", ⟨3, 90⟩)]⟩ = some (st1, some fileD2) ∧
      (⟨some StoreRef.deps, some fileD, some StoreRef.deps, some fileD2⟩ :
          FileChange).exitFailure
        (st1.setFs (ainsert
          (fullPath ⟨samplePack, [("mods/d.jar", ⟨3, 90⟩)]⟩ fileD2.name)
          ⟨11, 95⟩ st1.fs)) = some st3 ∧
      st3.pack = samplePack ∧
      (∀ p, alookup p st3.fs =
        alookup p ([("mods/d.jar", ⟨3, 90⟩)] : List (String × FData))) ∧
      alookup (fullPath ⟨samplePack, [("mods/d.jar", ⟨3, 90⟩)]⟩
        (tmpName fileD.name)) st3.fs = none ∧
      alookup (fullPath ⟨samplePack, [("mods/d.jar", ⟨3, 90⟩)]⟩ fileD.name)
        st3.fs = some ⟨3, 90⟩ :=
  upgrade_change_rolls_back ⟨samplePack, [("mods/d.jar", ⟨3, 90⟩)]⟩
    StoreRef.deps fileD fileD2 11 95 ⟨3, 90⟩
    (by decide) rfl rfl (by decide) (Or.inr rfl)

/-- Witness for C10 at a concrete input: marking `D` explicit in the
sample pack. -/
theorem explicit_change_pure_metadata_witness :
    ∃ st1 st2,
      (FileChange.explicit fileD).enter ⟨samplePack, []⟩ = some (st1, none) ∧
      st1.fs = (⟨samplePack, []⟩ : PackState).fs ∧
      (FileChange.explicit fileD).exitSuccess st1 = some st2 ∧
      st2.fs = (⟨samplePack, []⟩ : PackState).fs ∧
      st2.pack.path = samplePack.path ∧
      st2.pack.game = samplePack.game ∧
      st2.pack.dependencies = aerase fileD.mod.id samplePack.dependencies ∧
      st2.pack.mods = samplePack.mods ++ [(fileD.mod.id, fileD)] :=
  explicit_change_pure_metadata ⟨samplePack, []⟩ fileD rfl rfl

end Mccurse
